import Mathlib

/-!
Shallow embedding of the DFA engine of `practica2.py`: the `State`/`AFD`
data model, the mutators `add_state`/`add_transition`, the validator
`validate_string` with its step trace, the native codec
(`to_afd_format`/`from_afd_format`) and the JFLAP import
(`from_jff_format`, modelled over an already-parsed XML document tree).

Python strings are modelled as `List Char`; Python dicts as association
lists with insertion-order-preserving overwrite (`dictInsert`) and key
lookup (`dictLookup`); a Python `State` object reference is modelled as
its index in the automaton's `states` list (states are appended and never
removed, so the index is a faithful identity). A Python `ValueError` or
`KeyError` is modelled by returning `Except.error`.
-/

namespace AFDVerify

abbrev Str := List Char

/-- Lookup in a Python-dict-like association list. -/
def dictLookup {α β : Type} [DecidableEq α] (k : α) : List (α × β) → Option β
  | [] => none
  | (k', v) :: rest => if k' = k then some v else dictLookup k rest

/-- Python dict assignment `d[k] = v`: overwrite in place if the key is
present (keeping its insertion position), otherwise append. -/
def dictInsert {α β : Type} [DecidableEq α] (k : α) (v : β) : List (α × β) → List (α × β)
  | [] => [(k, v)]
  | (k', v') :: rest => if k' = k then (k, v) :: rest else (k', v') :: dictInsert k v rest

/-- `class State`: a name plus the two boolean flags. -/
structure State where
  name : Str
  is_initial : Bool
  is_final : Bool
deriving DecidableEq

/-- `class AFD`: states (a state reference is its index in `states`),
derived alphabet, optional initial state, final-state references, and the
transition dict keyed by (state, symbol). -/
structure AFD where
  states : List State
  alphabet : List Str
  initial_state : Option Nat
  final_states : List Nat
  transitions : List ((Nat × Str) × Nat)
deriving DecidableEq

/-- `AFD.__init__`: the empty automaton. -/
def AFD.empty : AFD :=
  { states := [], alphabet := [], initial_state := none, final_states := [], transitions := [] }

/-- `AFD.add_state`: append a fresh `State`; if `is_initial`, overwrite
`initial_state` with it; if `is_final`, append it to `final_states`.
Returns the new state's reference (its index) alongside the automaton. -/
def AFD.add_state (afd : AFD) (name : Str) (is_initial : Bool) (is_final : Bool) : AFD × Nat :=
  let idx := afd.states.length
  let new_state : State := { name := name, is_initial := is_initial, is_final := is_final }
  ({ states := afd.states ++ [new_state]
     alphabet := afd.alphabet
     initial_state := if is_initial then some idx else afd.initial_state
     final_states := if is_final then afd.final_states ++ [idx] else afd.final_states
     transitions := afd.transitions }, idx)

/-- `AFD.add_transition`: register the symbol into the alphabet iff it is
absent and non-empty, then set `transitions[(from_state, symbol)]`. -/
def AFD.add_transition (afd : AFD) (from_state : Nat) (symbol : Str) (to_state : Nat) : AFD :=
  { afd with
    alphabet :=
      if symbol ∉ afd.alphabet ∧ symbol ≠ [] then afd.alphabet ++ [symbol] else afd.alphabet
    transitions := dictInsert (from_state, symbol) to_state afd.transitions }

/-- Helper for `get_state_by_name`: index of the first state with the
given name. -/
def findName : List State → Str → Option Nat
  | [], _ => none
  | st :: rest, n => if st.name = n then some 0 else (findName rest n).map (· + 1)

/-- `AFD.get_state_by_name`: first matching state in insertion order. -/
def AFD.get_state_by_name (afd : AFD) (name : Str) : Option Nat :=
  findName afd.states name

/-- One entry of the validation trace `(state, position, remaining)`;
`state = none` models Python's `None` in the terminal error step. -/
structure Step where
  state : Option Nat
  position : Nat
  remaining : Str
deriving DecidableEq

/-- The `for i, symbol in enumerate(input_string)` loop of
`validate_string`, carrying the current state, position and accumulated
steps. -/
def validate_loop (afd : AFD) (current : Nat) (i : Nat) (rest : Str) (steps : List Step) :
    Bool × List Step :=
  match rest with
  | [] => (decide (current ∈ afd.final_states), steps)
  | c :: rest' =>
    match dictLookup (current, [c]) afd.transitions with
    | none => (false, steps ++ [{ state := none, position := i + 1, remaining := rest' }])
    | some next =>
      validate_loop afd next (i + 1) rest'
        (steps ++ [{ state := some next, position := i + 1, remaining := rest' }])

/-- `AFD.validate_string`. -/
def AFD.validate_string (afd : AFD) (input : Str) : Bool × List Step :=
  match afd.initial_state with
  | none => (false, [])
  | some init =>
    validate_loop afd init 0 input [{ state := some init, position := 0, remaining := input }]

/-- The name of the state referenced by index `i` (always in range for
automata built through `add_state`). -/
def AFD.nameOf (afd : AFD) (i : Nat) : Str :=
  match afd.states.get? i with
  | some st => st.name
  | none => []

/-- The native serialization record produced by `to_afd_format`. -/
structure AFDFormat where
  alphabet : List Str
  states : List Str
  initial_state : Str
  final_states : List Str
  transitions : List (Str × Str)
deriving DecidableEq

/-- `AFD.to_afd_format`: the transitions dict comprehension is a fold of
dict assignment over the automaton's transition entries, with key
`"<from-name>,<symbol>"`. -/
def AFD.to_afd_format (afd : AFD) : AFDFormat :=
  { alphabet := afd.alphabet
    states := afd.states.map State.name
    initial_state :=
      match afd.initial_state with
      | some i => afd.nameOf i
      | none => []
    final_states := afd.final_states.map afd.nameOf
    transitions := afd.transitions.foldl
      (fun d e => dictInsert (afd.nameOf e.1.1 ++ [','] ++ e.1.2) (afd.nameOf e.2) d) [] }

/-- Python `str.split(",")`: split on every comma; splitting the empty
string yields `[[]]`. -/
def splitComma : Str → List Str
  | [] => [[]]
  | c :: rest =>
    match splitComma rest with
    | [] => [[]]
    | p :: ps => if c = ',' then [] :: p :: ps else (c :: p) :: ps

/-- First phase of `from_afd_format`: add one state per listed name,
initial iff the name equals the record's `initial_state`, final iff it is
listed in `final_states`. -/
def addStates (afd : AFD) (ini : Str) (fins : List Str) : List Str → AFD
  | [] => afd
  | n :: ns => addStates (afd.add_state n (decide (n = ini)) (decide (n ∈ fins))).1 ini fins ns

/-- Second phase of `from_afd_format`: for each `(key, to_name)` entry,
`key.split(",")` must unpack into exactly two parts (otherwise Python
raises `ValueError`); both names are resolved with `get_state_by_name`
and the entry is silently skipped when either resolution fails. -/
def addTransitions (afd : AFD) : List (Str × Str) → Except String AFD
  | [] => .ok afd
  | (key, toName) :: rest =>
    match splitComma key with
    | [from_state_name, symbol] =>
      match afd.get_state_by_name from_state_name, afd.get_state_by_name toName with
      | some f, some t => addTransitions (afd.add_transition f symbol t) rest
      | _, _ => addTransitions afd rest
    | _ => .error "ValueError"

/-- `AFD.from_afd_format`. -/
def AFD.from_afd_format (data : AFDFormat) : Except String AFD :=
  addTransitions (addStates AFD.empty data.initial_state data.final_states data.states)
    data.transitions

/-- A `<state>` element of a JFF document: id, optional `name` attribute,
and presence of the `<initial>`/`<final>` child markers. -/
structure JFFState where
  id : Str
  name : Option Str
  is_initial : Bool
  is_final : Bool
deriving DecidableEq

/-- A `<transition>` element: `<from>`/`<to>` ids and the optional
`<read>` text. -/
structure JFFTransition where
  fromId : Str
  toId : Str
  read : Option Str
deriving DecidableEq

/-- An already-parsed JFF (JFLAP XML) document: the `state` and
`transition` elements, in document order. -/
structure JFFDoc where
  states : List JFFState
  transitions : List JFFTransition
deriving DecidableEq

/-- `read_elem.text if read_elem is not None and read_elem.text else ""`. -/
def jffSymbol : Option Str → Str
  | some s => if s = [] then [] else s
  | none => []

/-- First pass of `from_jff_format`: add every state (name defaulting to
the id) and build the `id_to_state` dict. -/
def jffStates (afd : AFD) (idMap : List (Str × Nat)) : List JFFState → AFD × List (Str × Nat)
  | [] => (afd, idMap)
  | st :: rest =>
    let nm := st.name.getD st.id
    let p := afd.add_state nm st.is_initial st.is_final
    jffStates p.1 (dictInsert st.id p.2 idMap) rest

/-- Second pass of `from_jff_format`: `id_to_state[from_id]` and
`id_to_state[to_id]` raise `KeyError` when the id is absent. -/
def jffTrans (afd : AFD) (idMap : List (Str × Nat)) : List JFFTransition → Except String AFD
  | [] => .ok afd
  | tr :: rest =>
    match dictLookup tr.fromId idMap, dictLookup tr.toId idMap with
    | some f, some t => jffTrans (afd.add_transition f (jffSymbol tr.read) t) idMap rest
    | _, _ => .error "KeyError"

/-- `AFD.from_jff_format`, over the parsed document tree. -/
def AFD.from_jff_format (doc : JFFDoc) : Except String AFD :=
  let p := jffStates AFD.empty [] doc.states
  jffTrans p.1 p.2 doc.transitions

/-- Automata reachable from the empty automaton by `add_state` /
`add_transition` calls whose state references belong to the automaton
(in Python the caller passes `State` objects owned by the automaton). -/
inductive Built : AFD → Prop
  | empty : Built AFD.empty
  | add_state (a : AFD) (n : Str) (ini fin : Bool) :
      Built a → Built (a.add_state n ini fin).1
  | add_transition (a : AFD) (f : Nat) (s : Str) (t : Nat) :
      Built a → f < a.states.length → t < a.states.length → Built (a.add_transition f s t)

/-- The automaton with every empty-symbol transition removed (used to
state that `validate_string` never takes such a transition). -/
def AFD.removeEpsilonTransitions (afd : AFD) : AFD :=
  { afd with transitions := afd.transitions.filter (fun e => decide (e.1.2 ≠ [])) }

/-- The state reached from `current` after consuming a list of input
characters, or `none` if some lookup fails on the way. -/
def stateAt (afd : AFD) (current : Nat) : Str → Option Nat
  | [] => some current
  | c :: cs =>
    match dictLookup (current, [c]) afd.transitions with
    | none => none
    | some next => stateAt afd next cs

/-- Names of the final states. -/
def AFD.finalNames (afd : AFD) : List Str :=
  afd.final_states.map afd.nameOf

/-- The transition table as (from-name, symbol, to-name) triples. -/
def AFD.nameTriples (afd : AFD) : List (Str × Str × Str) :=
  afd.transitions.map (fun e => (afd.nameOf e.1.1, e.1.2, afd.nameOf e.2))

/-- Validity of transition endpoints: every entry references states of
the automaton (guaranteed for automata built through the mutators). -/
def TransWF (a : AFD) : Prop :=
  ∀ e ∈ a.transitions, e.1.1 < a.states.length ∧ e.2 < a.states.length

/-- Whether a native-format transition entry resolves against a given
automaton's states (used to state the lenient-skip claim). -/
def entryResolves (a : AFD) (e : Str × Str) : Bool :=
  match splitComma e.1 with
  | [fn, _] => (a.get_state_by_name fn).isSome && (a.get_state_by_name e.2).isSome
  | _ => false

/-- Index of the first occurrence of a name in a list of names (the
name-list counterpart of `findName`). -/
def idxOfName : List Str → Str → Option Nat
  | [], _ => none
  | m :: rest, n => if m = n then some 0 else (idxOfName rest n).map (· + 1)

/-- A record whose transition key `"q0,,"` holds a comma inside the
symbol portion. -/
def badRecord : AFDFormat :=
  { alphabet := [], states := [['q', '0']], initial_state := ['q', '0'],
    final_states := [], transitions := [(['q', '0', ',', ','], ['q', '0'])] }

/-- A record with one transition whose to-name `"q1"` is not a listed
state (it must be skipped) and one fully resolvable transition. -/
def lenientRecord : AFDFormat :=
  { alphabet := [], states := [['q', '0']], initial_state := ['q', '0'],
    final_states := [], transitions :=
      [(['q', '0', ',', 'a'], ['q', '1']), (['q', '0', ',', 'b'], ['q', '0'])] }

/-- A JFF document whose only transition targets the unknown state id
`"1"`. -/
def jffDocEx : JFFDoc :=
  { states := [{ id := ['0'], name := some ['q', '0'], is_initial := true, is_final := false }],
    transitions := [{ fromId := ['0'], toId := ['1'], read := some ['a'] }] }

/-- An automaton with a comma-free state name but a transition labelled
with the symbol `","`. -/
def commaA : AFD :=
  ((AFD.empty.add_state ['q', '0'] true false).1).add_transition 0 [','] 0

/-- The worked example automaton of the spec: `q0` initial, `q1` final,
transitions on '0' and '1' accepting binary strings ending in '1'. -/
def exA : AFD :=
  let a1 := (AFD.empty.add_state ['q', '0'] true false).1
  let a2 := (a1.add_state ['q', '1'] false true).1
  let a3 := a2.add_transition 0 ['0'] 0
  let a4 := a3.add_transition 0 ['1'] 1
  let a5 := a4.add_transition 1 ['0'] 0
  a5.add_transition 1 ['1'] 1

/-! ### Association-list (Python dict) lemmas -/

theorem dictLookup_insert_self {α β : Type} [DecidableEq α] (k : α) (v : β)
    (d : List (α × β)) : dictLookup k (dictInsert k v d) = some v := by
  induction d with
  | nil => simp [dictInsert, dictLookup]
  | cons e rest ih =>
    by_cases h : e.1 = k
    · simp [dictInsert, dictLookup, h]
    · simpa [dictInsert, dictLookup, h] using ih

theorem dictLookup_insert_ne {α β : Type} [DecidableEq α] {k k' : α} (v : β)
    (d : List (α × β)) (h : k' ≠ k) :
    dictLookup k' (dictInsert k v d) = dictLookup k' d := by
  induction d with
  | nil => simp [dictInsert, dictLookup, Ne.symm h]
  | cons e rest ih =>
    obtain ⟨a, b⟩ := e
    by_cases ha : a = k
    · subst ha
      simp [dictInsert, dictLookup, Ne.symm h]
    · by_cases ha' : a = k'
      · simp [dictInsert, dictLookup, ha, ha', h]
      · simp [dictInsert, dictLookup, ha, ha', ih]

theorem dictInsert_fresh {α β : Type} [DecidableEq α] (k : α) (v : β)
    (d : List (α × β)) (h : ∀ e ∈ d, e.1 ≠ k) :
    dictInsert k v d = d ++ [(k, v)] := by
  induction d with
  | nil => rfl
  | cons e rest ih =>
    have he : e.1 ≠ k := h e (List.mem_cons_self e rest)
    simp only [dictInsert, if_neg he, List.cons_append, List.cons.injEq, true_and]
    exact ih (fun e' h' => h e' (List.mem_cons_of_mem e h'))

theorem mem_of_mem_dictInsert {α β : Type} [DecidableEq α] {k : α} {v : β}
    {d : List (α × β)} {x : α × β} (h : x ∈ dictInsert k v d) :
    x = (k, v) ∨ x ∈ d := by
  induction d with
  | nil => simpa [dictInsert] using h
  | cons e rest ih =>
    by_cases he : e.1 = k
    · rw [dictInsert, if_pos he] at h
      rcases List.mem_cons.mp h with h | h
      · exact Or.inl h
      · exact Or.inr (List.mem_cons_of_mem e h)
    · rw [dictInsert, if_neg he] at h
      rcases List.mem_cons.mp h with h | h
      · exact Or.inr (h ▸ List.mem_cons_self e rest)
      · rcases ih h with h | h
        · exact Or.inl h
        · exact Or.inr (List.mem_cons_of_mem e h)

theorem keys_dictInsert_sub {α β : Type} [DecidableEq α] {k : α} {v : β}
    {d : List (α × β)} {x : α} (h : x ∈ (dictInsert k v d).map Prod.fst) :
    x = k ∨ x ∈ d.map Prod.fst := by
  rcases List.mem_map.mp h with ⟨e, he, hx⟩
  rcases mem_of_mem_dictInsert he with h' | h'
  · exact Or.inl (hx ▸ h' ▸ rfl)
  · exact Or.inr (hx ▸ List.mem_map_of_mem Prod.fst h')

theorem keysNodup_dictInsert {α β : Type} [DecidableEq α] (k : α) (v : β)
    (d : List (α × β)) (h : (d.map Prod.fst).Nodup) :
    ((dictInsert k v d).map Prod.fst).Nodup := by
  induction d with
  | nil => simp [dictInsert]
  | cons e rest ih =>
    rw [List.map_cons, List.nodup_cons] at h
    by_cases he : e.1 = k
    · rw [dictInsert, if_pos he]
      simpa [he ▸ h.1] using h.2
    · rw [dictInsert, if_neg he, List.map_cons, List.nodup_cons]
      refine ⟨fun hc => ?_, ih h.2⟩
      rcases keys_dictInsert_sub hc with hc | hc
      · exact he hc
      · exact h.1 hc

theorem mem_keys_of_same_key {α β : Type} [DecidableEq α] {d : List (α × β)}
    {e e' : α × β} (hn : (d.map Prod.fst).Nodup) (he : e ∈ d) (he' : e' ∈ d)
    (hk : e.1 = e'.1) : e = e' := by
  induction d with
  | nil => cases he
  | cons a rest ih =>
    rw [List.map_cons, List.nodup_cons] at hn
    rcases List.mem_cons.mp he with h1 | h1 <;> rcases List.mem_cons.mp he' with h2 | h2
    · exact h1.trans h2.symm
    · exfalso
      apply hn.1
      have hm : e'.1 ∈ rest.map Prod.fst := List.mem_map_of_mem Prod.fst h2
      rwa [← hk, h1] at hm
    · exfalso
      apply hn.1
      have hm : e.1 ∈ rest.map Prod.fst := List.mem_map_of_mem Prod.fst h1
      rwa [hk, h2] at hm
    · exact ih hn.2 h1 h2

/-! ### Frame lemmas for the two mutators -/

theorem add_transition_states (a : AFD) (f : Nat) (s : Str) (t : Nat) :
    (a.add_transition f s t).states = a.states := rfl

theorem add_transition_initial (a : AFD) (f : Nat) (s : Str) (t : Nat) :
    (a.add_transition f s t).initial_state = a.initial_state := rfl

theorem add_transition_final (a : AFD) (f : Nat) (s : Str) (t : Nat) :
    (a.add_transition f s t).final_states = a.final_states := rfl

theorem add_transition_transitions (a : AFD) (f : Nat) (s : Str) (t : Nat) :
    (a.add_transition f s t).transitions = dictInsert (f, s) t a.transitions := rfl

theorem add_state_states (a : AFD) (n : Str) (ini fin : Bool) :
    (a.add_state n ini fin).1.states
      = a.states ++ [{ name := n, is_initial := ini, is_final := fin }] := rfl

theorem add_state_transitions (a : AFD) (n : Str) (ini fin : Bool) :
    (a.add_state n ini fin).1.transitions = a.transitions := rfl

theorem add_state_alphabet (a : AFD) (n : Str) (ini fin : Bool) :
    (a.add_state n ini fin).1.alphabet = a.alphabet := rfl

theorem add_state_initial (a : AFD) (n : Str) (ini fin : Bool) :
    (a.add_state n ini fin).1.initial_state
      = if ini then some a.states.length else a.initial_state := rfl

theorem add_state_final (a : AFD) (n : Str) (ini fin : Bool) :
    (a.add_state n ini fin).1.final_states
      = if fin then a.final_states ++ [a.states.length] else a.final_states := rfl

/-! ### Invariants of automata built through the mutators -/

theorem built_transWF {a : AFD} (h : Built a) : TransWF a := by
  induction h with
  | empty => intro e he; cases he
  | add_state a n ini fin _ ih =>
    intro e he
    rw [add_state_transitions] at he
    rw [add_state_states, List.length_append]
    exact ⟨Nat.lt_of_lt_of_le (ih e he).1 (Nat.le_add_right _ _),
           Nat.lt_of_lt_of_le (ih e he).2 (Nat.le_add_right _ _)⟩
  | add_transition a f s t _ hf ht ih =>
    intro e he
    rw [add_transition_transitions] at he
    rw [add_transition_states]
    rcases mem_of_mem_dictInsert he with h' | h'
    · subst h'; exact ⟨hf, ht⟩
    · exact ih e h'

theorem built_keysNodup {a : AFD} (h : Built a) : (a.transitions.map Prod.fst).Nodup := by
  induction h with
  | empty => simp [AFD.empty]
  | add_state a n ini fin _ ih => rwa [add_state_transitions]
  | add_transition a f s t _ hf ht ih =>
    rw [add_transition_transitions]
    exact keysNodup_dictInsert _ _ _ ih

theorem built_initialWF {a : AFD} (h : Built a) :
    ∀ i, a.initial_state = some i → i < a.states.length := by
  induction h with
  | empty => intro i hi; cases hi
  | add_state a n ini fin _ ih =>
    intro i hi
    rw [add_state_initial] at hi
    rw [add_state_states, List.length_append]
    cases ini with
    | true =>
      simp only [if_pos] at hi
      cases hi
      simp
    | false =>
      simp only [Bool.false_eq_true, if_neg] at hi
      exact Nat.lt_of_lt_of_le (ih i hi) (Nat.le_add_right _ _)
  | add_transition a f s t _ hf ht ih =>
    intro i hi
    rw [add_transition_initial] at hi
    rw [add_transition_states]
    exact ih i hi

theorem built_finalWF {a : AFD} (h : Built a) :
    ∀ i ∈ a.final_states, i < a.states.length := by
  induction h with
  | empty => intro i hi; cases hi
  | add_state a n ini fin _ ih =>
    intro i hi
    rw [add_state_final] at hi
    rw [add_state_states, List.length_append]
    cases fin with
    | true =>
      simp only [if_pos] at hi
      rcases List.mem_append.mp hi with hi | hi
      · exact Nat.lt_of_lt_of_le (ih i hi) (Nat.le_add_right _ _)
      · simp_all
    | false =>
      simp only [Bool.false_eq_true, if_neg] at hi
      exact Nat.lt_of_lt_of_le (ih i hi) (Nat.le_add_right _ _)
  | add_transition a f s t _ hf ht ih =>
    intro i hi
    rw [add_transition_final] at hi
    rw [add_transition_states]
    exact ih i hi

/-! ### Alphabet characterization (C5) -/

theorem add_transition_alphabet (a : AFD) (f : Nat) (s : Str) (t : Nat) :
    (a.add_transition f s t).alphabet
      = if s ∉ a.alphabet ∧ s ≠ [] then a.alphabet ++ [s] else a.alphabet := rfl

theorem self_mem_dictInsert {α β : Type} [DecidableEq α] (k : α) (v : β)
    (d : List (α × β)) : (k, v) ∈ dictInsert k v d := by
  induction d with
  | nil => simp [dictInsert]
  | cons e rest ih =>
    by_cases he : e.1 = k
    · rw [dictInsert, if_pos he]
      exact List.mem_cons_self _ _
    · rw [dictInsert, if_neg he]
      exact List.mem_cons_of_mem e ih

theorem mem_dictInsert_of_ne {α β : Type} [DecidableEq α] {k : α} {v : β}
    {d : List (α × β)} {x : α × β} (hx : x ∈ d) (hne : x.1 ≠ k) :
    x ∈ dictInsert k v d := by
  induction d with
  | nil => cases hx
  | cons e rest ih =>
    by_cases he : e.1 = k
    · rw [dictInsert, if_pos he]
      rcases List.mem_cons.mp hx with h | h
      · exact absurd (h ▸ he) hne
      · exact List.mem_cons_of_mem _ h
    · rw [dictInsert, if_neg he]
      rcases List.mem_cons.mp hx with h | h
      · exact h ▸ List.mem_cons_self e _
      · exact List.mem_cons_of_mem e (ih h)

theorem exists_entry_dictInsert {f : Nat} {sym : Str} {t : Nat}
    (d : List ((Nat × Str) × Nat)) (s : Str) :
    (∃ f' t', ((f', s), t') ∈ dictInsert (f, sym) t d)
      ↔ s = sym ∨ ∃ f' t', ((f', s), t') ∈ d := by
  constructor
  · rintro ⟨f', t', hm⟩
    rcases mem_of_mem_dictInsert hm with h | h
    · obtain ⟨h1, -⟩ := Prod.mk.injEq .. ▸ h
      obtain ⟨-, h2⟩ := Prod.mk.injEq .. ▸ h1
      exact Or.inl h2
    · exact Or.inr ⟨f', t', h⟩
  · rintro (rfl | ⟨f', t', hm⟩)
    · exact ⟨f, t, self_mem_dictInsert _ _ _⟩
    · by_cases hk : ((f', s), t').1 = (f, sym)
      · have hs : s = sym := by
          have hsnd := congrArg Prod.snd hk
          simpa using hsnd
        subst hs
        exact ⟨f, t, self_mem_dictInsert _ _ _⟩
      · exact ⟨f', t', mem_dictInsert_of_ne hm hk⟩

theorem alphabet_iff {a : AFD} (h : Built a) :
    ∀ s : Str, s ∈ a.alphabet ↔ s ≠ [] ∧ ∃ f t, ((f, s), t) ∈ a.transitions := by
  induction h with
  | empty => intro s; simp [AFD.empty]
  | add_state a n ini fin _ ih =>
    intro s
    rw [add_state_alphabet, add_state_transitions]
    exact ih s
  | add_transition a f sym t _ hf ht ih =>
    intro s
    rw [add_transition_alphabet, add_transition_transitions]
    rw [exists_entry_dictInsert a.transitions s]
    by_cases hc : sym ∉ a.alphabet ∧ sym ≠ []
    · rw [if_pos hc, List.mem_append, List.mem_singleton, ih s]
      constructor
      · rintro (⟨h1, h2⟩ | rfl)
        · exact ⟨h1, Or.inr h2⟩
        · exact ⟨hc.2, Or.inl rfl⟩
      · rintro ⟨h1, (rfl | h2)⟩
        · exact Or.inr rfl
        · exact Or.inl ⟨h1, h2⟩
    · rw [if_neg hc, ih s]
      rw [not_and_or, not_not, ne_eq, not_not] at hc
      constructor
      · rintro ⟨h1, h2⟩
        exact ⟨h1, Or.inr h2⟩
      · rintro ⟨h1, (rfl | h2)⟩
        · rcases hc with hc | hc
          · exact ih s |>.mp hc
          · exact absurd hc h1
        · exact ⟨h1, h2⟩

/-! ### Validation ignores empty-symbol transitions (C6) -/

theorem lookup_filter_nonempty (d : List ((Nat × Str) × Nat)) (q : Nat) (s : Str)
    (hs : s ≠ []) :
    dictLookup (q, s) (d.filter (fun e => decide (e.1.2 ≠ []))) = dictLookup (q, s) d := by
  induction d with
  | nil => rfl
  | cons e rest ih =>
    obtain ⟨⟨f, sym⟩, t⟩ := e
    by_cases hsym : sym = []
    · subst hsym
      rw [List.filter_cons_of_neg (by simp)]
      rw [dictLookup]
      rw [if_neg (by
        intro hc
        have := congrArg Prod.snd hc
        exact hs (by simpa using this.symm))]
      exact ih
    · rw [List.filter_cons_of_pos (by simp [hsym])]
      rw [dictLookup, dictLookup]
      by_cases hk : (f, sym) = (q, s)
      · rw [if_pos hk, if_pos hk]
      · rw [if_neg hk, if_neg hk]
        exact ih

theorem validate_loop_removeEps (afd : AFD) :
    ∀ (rest : Str) (cur i : Nat) (steps : List Step),
      validate_loop afd.removeEpsilonTransitions cur i rest steps
        = validate_loop afd cur i rest steps := by
  intro rest
  induction rest with
  | nil => intro cur i steps; rfl
  | cons c rest' ih =>
    intro cur i steps
    have htr : afd.removeEpsilonTransitions.transitions
        = afd.transitions.filter (fun e => decide (e.1.2 ≠ [])) := rfl
    simp only [validate_loop, htr]
    rw [lookup_filter_nonempty afd.transitions cur [c] (by simp)]
    cases dictLookup (cur, [c]) afd.transitions with
    | none => rfl
    | some next => exact ih next (i + 1) _

/-! ### The run characterization used for the failure claim (C2) -/

theorem validate_loop_fail (afd : AFD) :
    ∀ (rest : Str) (j cur mid i : Nat) (steps : List Step),
      ∀ (hj : j < rest.length),
      stateAt afd cur (rest.take j) = some mid →
      dictLookup (mid, [rest.get ⟨j, hj⟩]) afd.transitions = none →
      ∃ pre : List Step,
        validate_loop afd cur i rest steps
          = (false, steps ++ pre
              ++ [{ state := none, position := i + j + 1, remaining := rest.drop (j + 1) }]) ∧
        pre.length = j ∧ ∀ st ∈ pre, st.state ≠ none := by
  intro rest
  induction rest with
  | nil =>
    intro j cur mid i steps hj
    exact absurd hj (Nat.not_lt_zero j)
  | cons c rest' ih =>
    intro j cur mid i steps
    cases j with
    | zero =>
      intro hj hrun hfail
      simp only [List.take_zero, stateAt] at hrun
      injection hrun with hcm
      subst hcm
      have hget : (c :: rest').get ⟨0, hj⟩ = c := rfl
      rw [hget] at hfail
      refine ⟨[], ?_, rfl, by simp⟩
      simp only [validate_loop, hfail]
      simp
    | succ j' =>
      intro hj hrun hfail
      rw [List.take_succ_cons] at hrun
      simp only [stateAt] at hrun
      cases hlk : dictLookup (cur, [c]) afd.transitions with
      | none =>
        rw [hlk] at hrun
        simp at hrun
      | some next =>
        rw [hlk] at hrun
        have hj' : j' < rest'.length := Nat.lt_of_succ_lt_succ hj
        have hget : (c :: rest').get ⟨j' + 1, hj⟩ = rest'.get ⟨j', hj'⟩ := rfl
        rw [hget] at hfail
        obtain ⟨pre', heq, hlen, hnn⟩ :=
          ih j' next mid (i + 1)
            (steps ++ [{ state := some next, position := i + 1, remaining := rest' }])
            hj' hrun hfail
        refine ⟨{ state := some next, position := i + 1, remaining := rest' } :: pre',
          ?_, by simp [hlen], ?_⟩
        · simp only [validate_loop, hlk]
          rw [heq]
          have harith : i + 1 + j' + 1 = i + (j' + 1) + 1 := by omega
          rw [harith, List.drop_succ_cons]
          simp [List.append_assoc]
        · intro st hst
          rcases List.mem_cons.mp hst with h | h
          · subst h; simp
          · exact hnn st h

theorem built_exA : Built exA :=
  Built.add_transition _ 1 ['1'] 1
    (Built.add_transition _ 1 ['0'] 0
      (Built.add_transition _ 0 ['1'] 1
        (Built.add_transition _ 0 ['0'] 0
          (Built.add_state _ ['q', '1'] false true
            (Built.add_state _ ['q', '0'] true false Built.empty))
          (by decide) (by decide))
        (by decide) (by decide))
      (by decide) (by decide))
    (by decide) (by decide)

/-! ### Claim theorems: C2, C3, C5, C6 and C10 -/

/-- C2: with an initial state set, when the walk reaches the first index
`i` whose symbol has no transition from the current state (`mid` is the
state after the first `i` symbols), `validate_string` returns
`accepted = false`, the trace has exactly `i + 2` entries (so no further
input symbol is processed), its last entry is the single terminal step
`(none, i + 1, input[i+1:])`, and every earlier entry has a non-`none`
state. -/
theorem claim_C2 (afd : AFD) (input : Str) (init mid i : Nat)
    (hinit : afd.initial_state = some init) (hi : i < input.length)
    (hrun : stateAt afd init (input.take i) = some mid)
    (hfail : dictLookup (mid, [input.get ⟨i, hi⟩]) afd.transitions = none) :
    (afd.validate_string input).1 = false ∧
    (afd.validate_string input).2.length = i + 2 ∧
    (afd.validate_string input).2.getLast?
      = some { state := none, position := i + 1, remaining := input.drop (i + 1) } ∧
    ∀ st ∈ (afd.validate_string input).2.dropLast, st.state ≠ none := by
  obtain ⟨pre, heq, hlen, hnn⟩ :=
    validate_loop_fail afd input i init mid 0
      [{ state := some init, position := 0, remaining := input }] hi hrun hfail
  rw [Nat.zero_add] at heq
  have hvs : afd.validate_string input
      = (false, [{ state := some init, position := 0, remaining := input }] ++ pre
          ++ [{ state := none, position := i + 1, remaining := input.drop (i + 1) }]) := by
    simp only [AFD.validate_string, hinit]
    exact heq
  refine ⟨by rw [hvs], ?_, ?_, ?_⟩
  · rw [hvs]
    simp [hlen]
  · rw [hvs]
    exact List.getLast?_concat _
  · rw [hvs]
    simp only [List.dropLast_concat]
    intro st hst
    rcases List.mem_append.mp hst with h | h
    · rw [List.mem_singleton] at h
      subst h
      simp
    · exact hnn st h

/-- Witness for C2: the spec's example automaton on input `"12"`, which
fails at index 1 (symbol `'2'`). -/
theorem claim_C2_witness :
    exA.initial_state = some 0 ∧
    stateAt exA 0 ((['1', '2'] : Str).take 1) = some 1 ∧
    dictLookup (1, [(['1', '2'] : Str).get ⟨1, by decide⟩]) exA.transitions = none ∧
    ((exA.validate_string ['1', '2']).1 = false ∧
     (exA.validate_string ['1', '2']).2.length = 1 + 2 ∧
     (exA.validate_string ['1', '2']).2.getLast?
       = some { state := none, position := 1 + 1, remaining := (['1', '2'] : Str).drop (1 + 1) } ∧
     ∀ st ∈ (exA.validate_string ['1', '2']).2.dropLast, st.state ≠ none) :=
  ⟨by decide, by decide, by decide,
    claim_C2 exA ['1', '2'] 0 1 1 (by decide) (by decide) (by decide) (by decide)⟩

/-- C5: for every automaton reachable from the empty automaton through
the mutators, the alphabet holds exactly the non-empty symbols labelling
at least one transition; an empty-symbol transition contributes nothing. -/
theorem claim_C5 {a : AFD} (h : Built a) (s : Str) :
    s ∈ a.alphabet ↔ s ≠ [] ∧ ∃ f t, ((f, s), t) ∈ a.transitions :=
  alphabet_iff h s

/-- Witness for C5: the example automaton and the symbol `'0'`. -/
theorem claim_C5_witness :
    Built exA ∧
    (['0'] ∈ exA.alphabet ↔ ['0'] ≠ [] ∧ ∃ f t, ((f, ['0']), t) ∈ exA.transitions) :=
  ⟨built_exA, claim_C5 built_exA ['0']⟩

/-- C6: `validate_string` gives the same verdict and trace on an
automaton and on the automaton with all empty-symbol transitions
removed — validation never takes an epsilon-labelled transition. -/
theorem claim_C6 (afd : AFD) (input : Str) :
    afd.validate_string input = afd.removeEpsilonTransitions.validate_string input := by
  simp only [AFD.validate_string]
  have hinit : afd.removeEpsilonTransitions.initial_state = afd.initial_state := rfl
  rw [hinit]
  cases afd.initial_state with
  | none => rfl
  | some init => exact (validate_loop_removeEps afd input init 0 _).symm

/-- C3: when `initial_state` is unset — in particular for the empty
automaton — `validate_string` returns `(false, [])` for every input,
an ordinary rejection with an empty trace. -/
theorem claim_C3 (afd : AFD) (input : Str) (h : afd.initial_state = none) :
    afd.validate_string input = (false, []) := by
  unfold AFD.validate_string
  rw [h]

/-- Witness for C3: the empty automaton on the empty string. -/
theorem claim_C3_witness :
    AFD.empty.initial_state = none ∧ AFD.empty.validate_string [] = (false, []) :=
  ⟨rfl, claim_C3 AFD.empty [] rfl⟩

/-- C10: `add_transition` leaves `states`, `initial_state` and
`final_states` unchanged; `add_state` leaves `transitions` and the
alphabet unchanged, appends exactly one `State`, sets `initial_state` to
the new state exactly when the initial flag is set, and appends the new
state to `final_states` exactly when the final flag is set. -/
theorem claim_C10 (a : AFD) (f : Nat) (s : Str) (t : Nat) (n : Str) (ini fin : Bool) :
    (a.add_transition f s t).states = a.states ∧
    (a.add_transition f s t).initial_state = a.initial_state ∧
    (a.add_transition f s t).final_states = a.final_states ∧
    (a.add_state n ini fin).1.transitions = a.transitions ∧
    (a.add_state n ini fin).1.alphabet = a.alphabet ∧
    (a.add_state n ini fin).1.states
      = a.states ++ [{ name := n, is_initial := ini, is_final := fin }] ∧
    (a.add_state n ini fin).1.initial_state
      = (if ini then some a.states.length else a.initial_state) ∧
    (a.add_state n ini fin).1.final_states
      = (if fin then a.final_states ++ [a.states.length] else a.final_states) :=
  ⟨rfl, rfl, rfl, rfl, rfl, rfl, rfl, rfl⟩

/-! ### Native-codec parse failure and lenient skip (C7, C8) -/

theorem addTransitions_error :
    ∀ (entries : List (Str × Str)) (a : AFD) (key toName : Str),
      (key, toName) ∈ entries → (splitComma key).length ≠ 2 →
      addTransitions a entries = .error "ValueError" := by
  intro entries
  induction entries with
  | nil =>
    intro a k t h
    cases h
  | cons e rest ih =>
    intro a k t hmem hbad
    rcases List.mem_cons.mp hmem with heq | hmem2
    · subst heq
      cases hsp : splitComma k with
      | nil => simp only [addTransitions, hsp]
      | cons p ps =>
        cases ps with
        | nil => simp only [addTransitions, hsp]
        | cons p2 ps2 =>
          cases ps2 with
          | nil => exact absurd (by rw [hsp]; rfl) hbad
          | cons p3 ps3 => simp only [addTransitions, hsp]
    · obtain ⟨k0, t0⟩ := e
      cases hsp : splitComma k0 with
      | nil => simp only [addTransitions, hsp]
      | cons p ps =>
        cases ps with
        | nil => simp only [addTransitions, hsp]
        | cons p2 ps2 =>
          cases ps2 with
          | nil =>
            simp only [addTransitions, hsp]
            cases hf : a.get_state_by_name p with
            | none =>
              simp only [hf]
              exact ih a k t hmem2 hbad
            | some f =>
              cases ht : a.get_state_by_name t0 with
              | none =>
                simp only [hf, ht]
                exact ih a k t hmem2 hbad
              | some tt =>
                simp only [hf, ht]
                exact ih _ k t hmem2 hbad
          | cons p3 ps3 => simp only [addTransitions, hsp]

theorem addTransitions_ok :
    ∀ (entries : List (Str × Str)) (a : AFD),
      (∀ e ∈ entries, (splitComma e.1).length = 2) →
      ∃ b, addTransitions a entries = .ok b := by
  intro entries
  induction entries with
  | nil =>
    intro a _
    exact ⟨a, rfl⟩
  | cons e rest ih =>
    intro a hkeys
    obtain ⟨k0, t0⟩ := e
    have hlen : (splitComma k0).length = 2 := hkeys (k0, t0) (List.mem_cons_self _ _)
    have hrest : ∀ e ∈ rest, (splitComma e.1).length = 2 :=
      fun e he => hkeys e (List.mem_cons_of_mem _ he)
    cases hsp : splitComma k0 with
    | nil => rw [hsp] at hlen; cases hlen
    | cons p ps =>
      cases ps with
      | nil => rw [hsp] at hlen; cases hlen
      | cons p2 ps2 =>
        cases ps2 with
        | nil =>
          simp only [addTransitions, hsp]
          cases hf : a.get_state_by_name p with
          | none =>
            simp only [hf]
            exact ih a hrest
          | some f =>
            cases ht : a.get_state_by_name t0 with
            | none =>
              simp only [hf, ht]
              exact ih a hrest
            | some tt =>
              simp only [hf, ht]
              exact ih _ hrest
        | cons p3 ps3 => rw [hsp] at hlen; cases hlen

theorem get_state_by_name_eq_states {a b : AFD} (h : a.states = b.states) (n : Str) :
    a.get_state_by_name n = b.get_state_by_name n := by
  unfold AFD.get_state_by_name
  rw [h]

theorem addTransitions_filter :
    ∀ (entries : List (Str × Str)) (a a₀ : AFD), a.states = a₀.states →
      (∀ e ∈ entries, (splitComma e.1).length = 2) →
      addTransitions a (entries.filter (entryResolves a₀)) = addTransitions a entries := by
  intro entries
  induction entries with
  | nil =>
    intro a a₀ _ _
    rfl
  | cons e rest ih =>
    intro a a₀ hst hkeys
    obtain ⟨k0, t0⟩ := e
    have hlen : (splitComma k0).length = 2 := hkeys (k0, t0) (List.mem_cons_self _ _)
    have hrest : ∀ e ∈ rest, (splitComma e.1).length = 2 :=
      fun e he => hkeys e (List.mem_cons_of_mem _ he)
    cases hsp : splitComma k0 with
    | nil => rw [hsp] at hlen; cases hlen
    | cons p ps =>
      cases ps with
      | nil => rw [hsp] at hlen; cases hlen
      | cons p2 ps2 =>
        cases ps2 with
        | nil =>
          have hfp : a.get_state_by_name p = a₀.get_state_by_name p :=
            get_state_by_name_eq_states hst p
          have hft : a.get_state_by_name t0 = a₀.get_state_by_name t0 :=
            get_state_by_name_eq_states hst t0
          by_cases hr : entryResolves a₀ (k0, t0) = true
          · rw [List.filter_cons_of_pos hr]
            simp only [addTransitions, hsp]
            unfold entryResolves at hr
            rw [hsp] at hr
            simp only [Bool.and_eq_true, Option.isSome_iff_exists] at hr
            obtain ⟨⟨f, hf⟩, ⟨tt, ht⟩⟩ := hr
            rw [hfp.trans hf, hft.trans ht]
            exact ih _ a₀ hst hrest
          · rw [List.filter_cons_of_neg (by simpa using hr)]
            simp only [addTransitions, hsp]
            unfold entryResolves at hr
            rw [hsp] at hr
            simp only [Bool.and_eq_true, not_and_or, Option.not_isSome_iff_eq_none] at hr
            rcases hr with hr | hr
            · rw [hfp.trans hr]
              exact ih a a₀ hst hrest
            · cases hf : a.get_state_by_name p with
              | none =>
                simp only [hf]
                exact ih a a₀ hst hrest
              | some f =>
                rw [hft.trans hr]
                exact ih a a₀ hst hrest
        | cons p3 ps3 => rw [hsp] at hlen; cases hlen

/-! ### JFF import failure on an unknown state id (C9) -/

theorem jffStates_idMap_none :
    ∀ (sts : List JFFState) (a : AFD) (m : List (Str × Nat)) (k : Str),
      dictLookup k m = none → (∀ st ∈ sts, st.id ≠ k) →
      dictLookup k (jffStates a m sts).2 = none := by
  intro sts
  induction sts with
  | nil =>
    intro a m k h _
    exact h
  | cons st rest ih =>
    intro a m k h hids
    simp only [jffStates]
    apply ih
    · rw [dictLookup_insert_ne _ m (fun hc => hids st (List.mem_cons_self _ _) hc.symm)]
      exact h
    · exact fun st' h' => hids st' (List.mem_cons_of_mem _ h')

theorem jffTrans_error :
    ∀ (ts : List JFFTransition) (a : AFD) (m : List (Str × Nat)) (tr : JFFTransition),
      tr ∈ ts → (dictLookup tr.fromId m = none ∨ dictLookup tr.toId m = none) →
      jffTrans a m ts = .error "KeyError" := by
  intro ts
  induction ts with
  | nil =>
    intro a m tr h
    cases h
  | cons t0 rest ih =>
    intro a m tr htr hbad
    rcases List.mem_cons.mp htr with heq | hmem
    · subst heq
      cases hf : dictLookup tr.fromId m with
      | none => simp only [jffTrans, hf]
      | some f =>
        rcases hbad with h | h
        · rw [h] at hf; cases hf
        · simp only [jffTrans, hf, h]
    · cases hf : dictLookup t0.fromId m with
      | none => simp only [jffTrans, hf]
      | some f =>
        cases ht : dictLookup t0.toId m with
        | none => simp only [jffTrans, hf, ht]
        | some t =>
          simp only [jffTrans, hf, ht]
          exact ih _ m tr hmem hbad

/-! ### splitComma lemmas (for the round-trip claim C1) -/

theorem splitComma_ne_nil : ∀ (s : Str), splitComma s ≠ [] := by
  intro s
  induction s with
  | nil => simp [splitComma]
  | cons c cs ih =>
    rw [splitComma]
    cases hsb : splitComma cs with
    | nil => exact absurd hsb ih
    | cons p ps =>
      by_cases hc : c = ','
      · simp [hc]
      · simp [hc]

theorem splitComma_no_comma : ∀ (s : Str), ',' ∉ s → splitComma s = [s] := by
  intro s
  induction s with
  | nil => intro _; rfl
  | cons c cs ih =>
    intro h
    have hc : ¬ (c = ',') := fun hc => h (hc ▸ List.mem_cons_self c cs)
    have hcs : ',' ∉ cs := fun hm => h (List.mem_cons_of_mem c hm)
    rw [splitComma, ih hcs]
    simp [hc]

theorem splitComma_append : ∀ (a b : Str), ',' ∉ a →
    splitComma (a ++ ',' :: b) = a :: splitComma b := by
  intro a
  induction a with
  | nil =>
    intro b _
    show splitComma (',' :: b) = [] :: splitComma b
    rw [splitComma]
    cases hsb : splitComma b with
    | nil => exact absurd hsb (splitComma_ne_nil b)
    | cons p ps => simp
  | cons c cs ih =>
    intro b h
    have hc : ¬ (c = ',') := fun hc => h (hc ▸ List.mem_cons_self c cs)
    have hcs : ',' ∉ cs := fun hm => h (List.mem_cons_of_mem c hm)
    rw [List.cons_append, splitComma, ih b hcs]
    simp [hc]

theorem splitComma_pair (a b : Str) (ha : ',' ∉ a) (hb : ',' ∉ b) :
    splitComma (a ++ [','] ++ b) = [a, b] := by
  have he : a ++ [','] ++ b = a ++ ',' :: b := by simp
  rw [he, splitComma_append a b ha, splitComma_no_comma b hb]

theorem comma_key_inj {a a' b b' : Str} (ha : ',' ∉ a) (ha' : ',' ∉ a')
    (hb : ',' ∉ b) (hb' : ',' ∉ b')
    (h : a ++ [','] ++ b = a' ++ [','] ++ b') : a = a' ∧ b = b' := by
  have h1 := splitComma_pair a b ha hb
  have h2 := splitComma_pair a' b' ha' hb'
  rw [h, h2] at h1
  injection h1 with e1 e2
  injection e2 with e2 _
  exact ⟨e1.symm, e2.symm⟩

/-! ### get? and name-lookup helpers -/

theorem get?_append_some {α : Type} :
    ∀ (l l2 : List α) (n : Nat) (x : α), l.get? n = some x → (l ++ l2).get? n = some x := by
  intro l
  induction l with
  | nil =>
    intro l2 n x h
    simp at h
  | cons y ys ih =>
    intro l2 n x h
    cases n with
    | zero => simpa using h
    | succ m =>
      simp only [List.get?] at h ⊢
      exact ih l2 m x h

theorem nodup_get?_inj {α : Type} :
    ∀ (l : List α) (i j : Nat) (x : α),
      l.Nodup → l.get? i = some x → l.get? j = some x → i = j := by
  intro l
  induction l with
  | nil =>
    intro i j x _ h
    simp at h
  | cons y ys ih =>
    intro i j x hnd hi hj
    rw [List.nodup_cons] at hnd
    cases i with
    | zero =>
      cases j with
      | zero => rfl
      | succ m =>
        exfalso
        simp only [List.get?] at hi hj
        injection hi with hi
        have hx : x ∈ ys := List.get?_mem hj
        rw [← hi] at hx
        exact hnd.1 hx
    | succ m =>
      cases j with
      | zero =>
        exfalso
        simp only [List.get?] at hi hj
        injection hj with hj
        have hx : x ∈ ys := List.get?_mem hi
        rw [← hj] at hx
        exact hnd.1 hx
      | succ m' =>
        simp only [List.get?] at hi hj
        exact congrArg Nat.succ (ih m m' x hnd.2 hi hj)

theorem nameOf_of_get? {a : AFD} {i : Nat} {st : State} (h : a.states.get? i = some st) :
    a.nameOf i = st.name := by
  unfold AFD.nameOf
  rw [h]

theorem names_get?_of_lt (A : AFD) {i : Nat} (hi : i < A.states.length) :
    (A.states.map State.name).get? i = some (A.nameOf i) := by
  rw [List.get?_map]
  cases hget : A.states.get? i with
  | none =>
    rw [List.get?_eq_none] at hget
    omega
  | some st =>
    rw [nameOf_of_get? hget]
    rfl

theorem nameOf_eq_names (a : AFD) (j : Nat) :
    a.nameOf j = ((a.states.map State.name).get? j).getD [] := by
  unfold AFD.nameOf
  rw [List.get?_map]
  cases a.states.get? j with
  | none => rfl
  | some st => rfl

theorem nameOf_no_comma {A : AFD} {i : Nat} (hi : i < A.states.length)
    (hnoc : ∀ st ∈ A.states, ',' ∉ st.name) : ',' ∉ A.nameOf i := by
  unfold AFD.nameOf
  cases hget : A.states.get? i with
  | none =>
    rw [List.get?_eq_none] at hget
    omega
  | some st => exact hnoc st (List.get?_mem hget)

theorem nameOf_inj {A : AFD} (hnd : (A.states.map State.name).Nodup)
    {i j : Nat} (hi : i < A.states.length) (hj : j < A.states.length)
    (h : A.nameOf i = A.nameOf j) : i = j := by
  have hgi := names_get?_of_lt A hi
  have hgj := names_get?_of_lt A hj
  rw [← h] at hgj
  exact nodup_get?_inj _ i j _ hnd hgi hgj

theorem findName_eq_idxOf : ∀ (sts : List State) (n : Str),
    findName sts n = idxOfName (sts.map State.name) n := by
  intro sts
  induction sts with
  | nil => intro n; rfl
  | cons st rest ih =>
    intro n
    simp only [List.map_cons, findName, idxOfName, ih]

theorem idxOfName_get? : ∀ (names : List Str) (i : Nat) (n : Str),
    names.Nodup → names.get? i = some n → idxOfName names n = some i := by
  intro names
  induction names with
  | nil =>
    intro i n _ h
    simp at h
  | cons m rest ih =>
    intro i n hnd hget
    rw [List.nodup_cons] at hnd
    cases i with
    | zero =>
      simp only [List.get?] at hget
      injection hget with hget
      rw [idxOfName, if_pos hget]
    | succ j =>
      simp only [List.get?] at hget
      have hne : ¬ (m = n) := by
        intro he
        have hx : n ∈ rest := List.get?_mem hget
        rw [← he] at hx
        exact hnd.1 hx
      rw [idxOfName, if_neg hne, ih j n hnd.2 hget]
      rfl

/-! ### Characterization of the state-rebuilding phase of the codec -/

theorem map_congr_fun {α β : Type} (f g : α → β) (h : ∀ x, f x = g x) :
    ∀ l : List α, l.map f = l.map g := by
  intro l
  induction l with
  | nil => rfl
  | cons x xs ih => simp only [List.map_cons, h x, ih]

theorem map_congr_mem {α β : Type} (f g : α → β) :
    ∀ l : List α, (∀ x ∈ l, f x = g x) → l.map f = l.map g := by
  intro l
  induction l with
  | nil => intro _; rfl
  | cons x xs ih =>
    intro h
    rw [List.map_cons, List.map_cons, h x (List.mem_cons_self _ _),
      ih (fun y hy => h y (List.mem_cons_of_mem _ hy))]

theorem addStates_states (ini : Str) (fins : List Str) :
    ∀ (ns : List Str) (a : AFD),
      (addStates a ini fins ns).states
        = a.states ++ ns.map (fun n =>
            { name := n, is_initial := decide (n = ini), is_final := decide (n ∈ fins) }) := by
  intro ns
  induction ns with
  | nil =>
    intro a
    simp [addStates]
  | cons n ns' ih =>
    intro a
    simp only [addStates, ih, add_state_states, List.map_cons]
    simp [List.append_assoc]

theorem addStates_transitions (ini : Str) (fins : List Str) :
    ∀ (ns : List Str) (a : AFD), (addStates a ini fins ns).transitions = a.transitions := by
  intro ns
  induction ns with
  | nil => intro a; rfl
  | cons n ns' ih =>
    intro a
    simp only [addStates, ih, add_state_transitions]

theorem addStates_concat (ini : Str) (fins : List Str) :
    ∀ (ns : List Str) (a : AFD) (n : Str),
      addStates a ini fins (ns ++ [n])
        = (AFD.add_state (addStates a ini fins ns) n (decide (n = ini)) (decide (n ∈ fins))).1 := by
  intro ns
  induction ns with
  | nil => intro a n; rfl
  | cons m ns' ih =>
    intro a n
    have h1 : addStates a ini fins ((m :: ns') ++ [n])
        = addStates (a.add_state m (decide (m = ini)) (decide (m ∈ fins))).1 ini fins
            (ns' ++ [n]) := rfl
    rw [h1, ih]
    rfl

theorem addStates_initial_not_mem (ini : Str) (fins : List Str) :
    ∀ (ns : List Str) (a : AFD), ini ∉ ns →
      (addStates a ini fins ns).initial_state = a.initial_state := by
  intro ns
  induction ns using List.reverseRecOn with
  | nil => intro a _; rfl
  | append_singleton ns' n ih =>
    intro a h
    have hn : ¬ (n = ini) := fun he => h (List.mem_append.mpr (Or.inr (by simp [he])))
    have hns : ini ∉ ns' := fun hm => h (List.mem_append.mpr (Or.inl hm))
    rw [addStates_concat, add_state_initial]
    simp only [decide_eq_false hn, Bool.false_eq_true, if_false]
    exact ih a hns

theorem addStates_initial_mem (ini : Str) (fins : List Str) :
    ∀ (ns : List Str) (a : AFD), ini ∈ ns →
      ∃ j st, (addStates a ini fins ns).states.get? j = some st ∧ st.name = ini ∧
        (addStates a ini fins ns).initial_state = some j := by
  intro ns
  induction ns using List.reverseRecOn with
  | nil => intro a h; cases h
  | append_singleton ns' n ih =>
    intro a h
    rw [addStates_concat]
    by_cases hn : n = ini
    · refine ⟨(addStates a ini fins ns').states.length,
        { name := n, is_initial := decide (n = ini), is_final := decide (n ∈ fins) },
        ?_, hn, ?_⟩
      · rw [add_state_states]
        exact List.get?_concat_length _ _
      · rw [add_state_initial]
        simp [hn]
    · have hns : ini ∈ ns' := by
        rcases List.mem_append.mp h with h' | h'
        · exact h'
        · rw [List.mem_singleton] at h'
          exact absurd h'.symm hn
      obtain ⟨j, st, hget, hname, hinit⟩ := ih a hns
      refine ⟨j, st, ?_, hname, ?_⟩
      · rw [add_state_states]
        exact get?_append_some _ _ j st hget
      · rw [add_state_initial]
        simp [hn, hinit]

theorem nameOf_append {a b : AFD} (ext : List State) (h : b.states = a.states ++ ext)
    {j : Nat} (hj : j < a.states.length) : b.nameOf j = a.nameOf j := by
  cases hget : a.states.get? j with
  | none =>
    rw [List.get?_eq_none] at hget
    omega
  | some st =>
    rw [nameOf_of_get? hget]
    have hb : b.states.get? j = some st := by
      rw [h]
      exact get?_append_some _ _ j st hget
    rw [nameOf_of_get? hb]

theorem add_state_finalNames (a : AFD) (n : Str) (ini2 fin2 : Bool)
    (hwf : ∀ j ∈ a.final_states, j < a.states.length) :
    (a.add_state n ini2 fin2).1.finalNames
      = a.finalNames ++ (if fin2 then [n] else []) := by
  have hst := add_state_states a n ini2 fin2
  have hmap : a.final_states.map (a.add_state n ini2 fin2).1.nameOf
      = a.final_states.map a.nameOf := by
    apply map_congr_mem
    intro j hj
    exact nameOf_append _ hst (hwf j hj)
  unfold AFD.finalNames
  rw [add_state_final]
  cases fin2 with
  | false =>
    simp only [Bool.false_eq_true, if_false]
    rw [hmap, List.append_nil]
  | true =>
    simp only [if_true]
    rw [List.map_append, hmap]
    congr 1
    have hb : (a.add_state n ini2 true).1.states.get? a.states.length
        = some { name := n, is_initial := ini2, is_final := true } := by
      rw [add_state_states]
      exact List.get?_concat_length _ _
    simp [nameOf_of_get? hb]

theorem add_state_final_wf (a : AFD) (n : Str) (ini2 fin2 : Bool)
    (hwf : ∀ j ∈ a.final_states, j < a.states.length) :
    ∀ j ∈ (a.add_state n ini2 fin2).1.final_states,
      j < (a.add_state n ini2 fin2).1.states.length := by
  intro j hj
  rw [add_state_final] at hj
  rw [add_state_states, List.length_append, List.length_singleton]
  cases fin2 with
  | false =>
    simp only [Bool.false_eq_true, if_false] at hj
    exact Nat.lt_succ_of_lt (hwf j hj)
  | true =>
    simp only [if_true] at hj
    rcases List.mem_append.mp hj with h | h
    · exact Nat.lt_succ_of_lt (hwf j h)
    · rw [List.mem_singleton] at h
      subst h
      exact Nat.lt_succ_self _

theorem addStates_finalNames (ini : Str) (fins : List Str) :
    ∀ (ns : List Str) (a : AFD),
      (∀ j ∈ a.final_states, j < a.states.length) →
      (addStates a ini fins ns).finalNames
        = a.finalNames ++ ns.filter (fun n => decide (n ∈ fins)) := by
  intro ns
  induction ns with
  | nil =>
    intro a _
    simp [addStates]
  | cons n ns' ih =>
    intro a hwf
    simp only [addStates]
    rw [ih _ (add_state_final_wf a n _ _ hwf), add_state_finalNames a n _ _ hwf]
    by_cases hfin : n ∈ fins
    · simp [hfin, List.filter_cons, List.append_assoc]
    · simp [hfin, List.filter_cons, List.append_assoc]

/-! ### Serialization of the transition dict with fresh keys -/

theorem foldl_dictInsert_fresh {α K V : Type} [DecidableEq K] (key : α → K) (val : α → V) :
    ∀ (ts : List α) (d : List (K × V)),
      (ts.map key).Nodup →
      (∀ e ∈ ts, ∀ e' ∈ d, e'.1 ≠ key e) →
      ts.foldl (fun d2 e => dictInsert (key e) (val e) d2) d
        = d ++ ts.map (fun e => (key e, val e)) := by
  intro ts
  induction ts with
  | nil =>
    intro d _ _
    simp
  | cons e0 rest ih =>
    intro d hnd hdisj
    rw [List.map_cons, List.nodup_cons] at hnd
    simp only [List.foldl_cons]
    rw [dictInsert_fresh _ _ d (fun e' he' => hdisj e0 (List.mem_cons_self _ _) e' he')]
    have hdisj2 : ∀ e ∈ rest, ∀ e' ∈ d ++ [(key e0, val e0)], e'.1 ≠ key e := by
      intro e he e' he'
      rcases List.mem_append.mp he' with h' | h'
      · exact hdisj e (List.mem_cons_of_mem _ he) e' h'
      · rw [List.mem_singleton] at h'
        subst h'
        intro hc
        have hc' : key e0 = key e := hc
        exact hnd.1 (by rw [hc']; exact List.mem_map_of_mem key he)
    rw [ih _ hnd.2 hdisj2]
    simp [List.append_assoc]

theorem serial_keys_nodup (A : AFD) (hnd : (A.states.map State.name).Nodup)
    (hnoc : ∀ st ∈ A.states, ',' ∉ st.name)
    (hsym : ∀ e ∈ A.transitions, ',' ∉ e.1.2)
    (hkeys : (A.transitions.map Prod.fst).Nodup)
    (hwf : TransWF A) :
    (A.transitions.map (fun e => A.nameOf e.1.1 ++ [','] ++ e.1.2)).Nodup := by
  apply List.Nodup.map_on _ (List.Nodup.of_map Prod.fst hkeys)
  intro x hx y hy hxy
  have hncx : ',' ∉ A.nameOf x.1.1 := nameOf_no_comma (hwf x hx).1 hnoc
  have hncy : ',' ∉ A.nameOf y.1.1 := nameOf_no_comma (hwf y hy).1 hnoc
  obtain ⟨hn, hs⟩ := comma_key_inj hncx hncy (hsym x hx) (hsym y hy) hxy
  have hidx : x.1.1 = y.1.1 := nameOf_inj hnd (hwf x hx).1 (hwf y hy).1 hn
  have hkey : x.1 = y.1 := Prod.ext hidx hs
  exact mem_keys_of_same_key hkeys hx hy hkey

theorem to_format_transitions (A : AFD) :
    A.to_afd_format.transitions
      = A.transitions.foldl
          (fun d e => dictInsert (A.nameOf e.1.1 ++ [','] ++ e.1.2) (A.nameOf e.2) d) [] := rfl

/-! ### The transition-rebuilding phase on round-trip data -/

theorem roundtrip_addTrans (A : AFD) (hnd : (A.states.map State.name).Nodup)
    (hnoc : ∀ st ∈ A.states, ',' ∉ st.name) :
    ∀ (ts : List ((Nat × Str) × Nat)) (acc : AFD),
      acc.states.map State.name = A.states.map State.name →
      (∀ e ∈ ts, e.1.1 < A.states.length ∧ e.2 < A.states.length) →
      (∀ e ∈ ts, ',' ∉ e.1.2) →
      ∃ b, addTransitions acc
          (ts.map (fun e => (A.nameOf e.1.1 ++ [','] ++ e.1.2, A.nameOf e.2))) = .ok b ∧
        b.states = acc.states ∧ b.initial_state = acc.initial_state ∧
        b.final_states = acc.final_states ∧
        b.transitions = ts.foldl (fun d e => dictInsert e.1 e.2 d) acc.transitions := by
  intro ts
  induction ts with
  | nil =>
    intro acc hnames _ _
    exact ⟨acc, rfl, rfl, rfl, rfl, rfl⟩
  | cons e0 rest ih =>
    intro acc hnames hwf hsym
    obtain ⟨⟨f, sym⟩, t⟩ := e0
    have hf : f < A.states.length := (hwf _ (List.mem_cons_self _ _)).1
    have ht : t < A.states.length := (hwf _ (List.mem_cons_self _ _)).2
    have hsy : ',' ∉ sym := hsym _ (List.mem_cons_self _ _)
    have hnf : ',' ∉ A.nameOf f := nameOf_no_comma hf hnoc
    have hresf : acc.get_state_by_name (A.nameOf f) = some f := by
      unfold AFD.get_state_by_name
      rw [findName_eq_idxOf, hnames]
      exact idxOfName_get? _ f _ hnd (names_get?_of_lt A hf)
    have hrest2 : acc.get_state_by_name (A.nameOf t) = some t := by
      unfold AFD.get_state_by_name
      rw [findName_eq_idxOf, hnames]
      exact idxOfName_get? _ t _ hnd (names_get?_of_lt A ht)
    simp only [List.map_cons, addTransitions, splitComma_pair _ _ hnf hsy, hresf, hrest2]
    have hacc2 : (acc.add_transition f sym t).states.map State.name
        = A.states.map State.name := by
      rw [add_transition_states]
      exact hnames
    obtain ⟨b, hok, hs, hi, hfin, htr⟩ :=
      ih (acc.add_transition f sym t) hacc2
        (fun e he => hwf e (List.mem_cons_of_mem _ he))
        (fun e he => hsym e (List.mem_cons_of_mem _ he))
    refine ⟨b, hok, ?_, ?_, ?_, ?_⟩
    · rw [hs, add_transition_states]
    · rw [hi, add_transition_initial]
    · rw [hfin, add_transition_final]
    · rw [htr, add_transition_transitions]
      rfl

/-! ### Claim theorems: C4, C7, C8, C9 -/

/-- C4 counterexample: on the spec's example automaton,
`validate_string "12"` rejects with a trace of length 3 (initial step,
the successful step on `'1'`, and the terminal error step), so the
claimed trace length 2 is false. -/
theorem claim_C4_counterexample :
    ¬ ((exA.validate_string ['1', '2']).1 = false ∧
       (exA.validate_string ['1', '2']).2.length = 2 ∧
       (exA.validate_string ['1', '2']).2.getLast?.map Step.state = some none) := by
  decide

/-- C4 (amended): `validate_string "12"` on the example automaton returns
accepted = false with a trace of length 3 whose last entry has
`state = none`. -/
theorem claim_C4 :
    (exA.validate_string ['1', '2']).1 = false ∧
    (exA.validate_string ['1', '2']).2.length = 3 ∧
    (exA.validate_string ['1', '2']).2.getLast?.map Step.state = some none := by
  decide

/-- C7 counterexample: the key `"q0,,"` (symbol portion `","`) is not
parsed as `(from "q0", symbol ",")`; `from_afd_format` fails with the
`ValueError` of unpacking `split(",")`, so no automaton is returned. -/
theorem claim_C7_counterexample :
    AFD.from_afd_format badRecord = .error "ValueError" ∧
    ∀ b : AFD, AFD.from_afd_format badRecord ≠ .ok b := by
  refine ⟨rfl, fun b h => ?_⟩
  rw [show AFD.from_afd_format badRecord = Except.error "ValueError" from rfl] at h
  exact Except.noConfusion h

/-- C7 (amended): `from_afd_format` splits each transition key on every
comma and unpacks into exactly two parts, so any entry whose key does not
contain exactly one comma — in particular a key whose symbol portion
holds a comma, like `"q0,,"` — makes the whole parse fail with an error
instead of being parsed. -/
theorem claim_C7 (data : AFDFormat) (key toName : Str)
    (hmem : (key, toName) ∈ data.transitions)
    (hbad : (splitComma key).length ≠ 2) :
    AFD.from_afd_format data = .error "ValueError" := by
  unfold AFD.from_afd_format
  exact addTransitions_error _ _ _ _ hmem hbad

/-- Witness for C7 at the record holding the key `"q0,,"`. -/
theorem claim_C7_witness :
    (['q', '0', ',', ','], ['q', '0']) ∈ badRecord.transitions ∧
    (splitComma ['q', '0', ',', ',']).length ≠ 2 ∧
    AFD.from_afd_format badRecord = .error "ValueError" :=
  ⟨by decide, by decide,
    claim_C7 badRecord ['q', '0', ',', ','] ['q', '0'] (by decide) (by decide)⟩

/-- C8: over a record whose transition keys each contain exactly one
comma, `from_afd_format` raises no error, and entries whose from-name or
to-name does not resolve are silently skipped: the result equals the
parse of the record keeping only the resolvable entries. -/
theorem claim_C8 (data : AFDFormat)
    (hkeys : ∀ e ∈ data.transitions, (splitComma e.1).length = 2) :
    (∃ b, AFD.from_afd_format data = .ok b) ∧
    AFD.from_afd_format data
      = AFD.from_afd_format
          { data with transitions := (data.transitions.filter
              (entryResolves
                (addStates AFD.empty data.initial_state data.final_states data.states))) } := by
  constructor
  · exact addTransitions_ok data.transitions _ hkeys
  · exact (addTransitions_filter data.transitions _ _ rfl hkeys).symm

/-- Witness for C8 at a record with one unresolvable and one resolvable
transition. -/
theorem claim_C8_witness :
    (∀ e ∈ lenientRecord.transitions, (splitComma e.1).length = 2) ∧
    ((∃ b, AFD.from_afd_format lenientRecord = .ok b) ∧
     AFD.from_afd_format lenientRecord
       = AFD.from_afd_format
           { lenientRecord with transitions := (lenientRecord.transitions.filter
               (entryResolves
                 (addStates AFD.empty lenientRecord.initial_state lenientRecord.final_states
                   lenientRecord.states))) }) :=
  ⟨by decide, claim_C8 lenientRecord (by decide)⟩

/-- C9: a JFF document with a transition whose from-id or to-id matches
no state element makes `from_jff_format` fail with the lookup error — in
contrast to the native codec's silent skip, no automaton is returned. -/
theorem claim_C9 (doc : JFFDoc) (tr : JFFTransition) (htr : tr ∈ doc.transitions)
    (hbad : (∀ st ∈ doc.states, st.id ≠ tr.fromId) ∨ (∀ st ∈ doc.states, st.id ≠ tr.toId)) :
    AFD.from_jff_format doc = .error "KeyError" := by
  unfold AFD.from_jff_format
  apply jffTrans_error _ _ _ tr htr
  rcases hbad with h | h
  · exact Or.inl (jffStates_idMap_none doc.states AFD.empty [] tr.fromId rfl h)
  · exact Or.inr (jffStates_idMap_none doc.states AFD.empty [] tr.toId rfl h)

/-- Witness for C9 at a one-state document whose transition points at the
unknown id `"1"`. -/
theorem claim_C9_witness :
    ({ fromId := ['0'], toId := ['1'], read := some ['a'] } : JFFTransition)
      ∈ jffDocEx.transitions ∧
    AFD.from_jff_format jffDocEx = .error "KeyError" :=
  ⟨by decide,
    claim_C9 jffDocEx { fromId := ['0'], toId := ['1'], read := some ['a'] }
      (by decide) (Or.inr (by decide))⟩

/-! ### Claim C1: the native-format round trip -/

/-- C1 counterexample: the automaton `commaA` is built through the
mutators and its only state name `"q0"` contains no comma, yet the
round trip fails completely: the serialized key is `"q0,,"` (the
transition symbol is `","`), which `from_afd_format` cannot unpack, so
no automaton at all is produced. -/
theorem claim_C1_counterexample :
    Built commaA ∧ (∀ st ∈ commaA.states, ',' ∉ st.name) ∧
    AFD.from_afd_format commaA.to_afd_format = .error "ValueError" :=
  ⟨Built.add_transition _ 0 [','] 0
      (Built.add_state _ ['q', '0'] true false Built.empty) (by decide) (by decide),
    by decide, rfl⟩

/-- C1 (amended): for every automaton built through the mutators whose
state names are pairwise distinct and comma-free, whose transition
symbols are comma-free, and which, when it has no initial state, has no
state named the empty string, `from_afd_format` of `to_afd_format`
succeeds and reproduces the state names (in order), the initial-state
name, the final-state-name membership, and the exact list of
(from-name, symbol, to-name) transition triples. -/
theorem claim_C1 (A : AFD) (hb : Built A)
    (hnd : (A.states.map State.name).Nodup)
    (hnoc : ∀ st ∈ A.states, ',' ∉ st.name)
    (hsym : ∀ e ∈ A.transitions, ',' ∉ e.1.2)
    (hini : A.initial_state = none → [] ∉ A.states.map State.name) :
    ∃ b, AFD.from_afd_format A.to_afd_format = .ok b ∧
      b.states.map State.name = A.states.map State.name ∧
      b.initial_state.map b.nameOf = A.initial_state.map A.nameOf ∧
      (∀ n, n ∈ b.finalNames ↔ n ∈ A.finalNames) ∧
      b.nameTriples = A.nameTriples := by
  have hwfT := built_transWF hb
  have hkeysN := built_keysNodup hb
  have hinitWF := built_initialWF hb
  have hfinWF := built_finalWF hb
  have hdtr : A.to_afd_format.transitions
      = A.transitions.map (fun e => (A.nameOf e.1.1 ++ [','] ++ e.1.2, A.nameOf e.2)) := by
    rw [to_format_transitions,
      foldl_dictInsert_fresh (fun e => A.nameOf e.1.1 ++ [','] ++ e.1.2)
        (fun e => A.nameOf e.2) A.transitions []
        (serial_keys_nodup A hnd hnoc hsym hkeysN hwfT)
        (fun e _ e' he' => absurd he' (List.not_mem_nil e'))]
    rw [List.nil_append]
  have hunf : AFD.from_afd_format A.to_afd_format
      = addTransitions
          (addStates AFD.empty A.to_afd_format.initial_state A.to_afd_format.final_states
            (A.states.map State.name))
          A.to_afd_format.transitions := rfl
  rw [hunf, hdtr]
  have hRstates : (addStates AFD.empty A.to_afd_format.initial_state
      A.to_afd_format.final_states (A.states.map State.name)).states
      = (A.states.map State.name).map (fun n =>
          { name := n, is_initial := decide (n = A.to_afd_format.initial_state),
            is_final := decide (n ∈ A.to_afd_format.final_states) }) := by
    rw [addStates_states]
    rfl
  have hRnames : (addStates AFD.empty A.to_afd_format.initial_state
      A.to_afd_format.final_states (A.states.map State.name)).states.map State.name
      = A.states.map State.name := by
    rw [hRstates]
    generalize A.states.map State.name = l
    induction l with
    | nil => rfl
    | cons x xs ih => simp only [List.map_cons, ih]
  have hRtrans : (addStates AFD.empty A.to_afd_format.initial_state
      A.to_afd_format.final_states (A.states.map State.name)).transitions = [] := by
    rw [addStates_transitions]
    rfl
  obtain ⟨b, hok, hbs, hbi, hbf, hbt⟩ :=
    roundtrip_addTrans A hnd hnoc A.transitions _ hRnames hwfT hsym
  have hbnames : b.states.map State.name = A.states.map State.name := by
    rw [hbs]
    exact hRnames
  have hnameOf : ∀ j, b.nameOf j = A.nameOf j := by
    intro j
    rw [nameOf_eq_names, nameOf_eq_names, hbnames]
  have hbtA : b.transitions = A.transitions := by
    rw [hbt, hRtrans,
      foldl_dictInsert_fresh Prod.fst Prod.snd A.transitions [] hkeysN
        (fun e _ e' he' => absurd he' (List.not_mem_nil e'))]
    simp
  refine ⟨b, hok, hbnames, ?_, ?_, ?_⟩
  · cases hAi : A.initial_state with
    | none =>
      have hdini2 : A.to_afd_format.initial_state = [] := by
        simp [AFD.to_afd_format, hAi]
      have hnm : A.to_afd_format.initial_state ∉ A.states.map State.name := by
        rw [hdini2]
        exact hini hAi
      have hRi : (addStates AFD.empty A.to_afd_format.initial_state
          A.to_afd_format.final_states (A.states.map State.name)).initial_state
          = AFD.empty.initial_state :=
        addStates_initial_not_mem _ _ _ _ hnm
      rw [hbi, hRi]
      rfl
    | some i0 =>
      have hi0 : i0 < A.states.length := hinitWF i0 hAi
      have hdini2 : A.to_afd_format.initial_state = A.nameOf i0 := by
        simp [AFD.to_afd_format, hAi]
      have hmem : A.to_afd_format.initial_state ∈ A.states.map State.name := by
        rw [hdini2]
        exact List.get?_mem (names_get?_of_lt A hi0)
      obtain ⟨j, st, hget, hname, hinitR⟩ :=
        addStates_initial_mem A.to_afd_format.initial_state A.to_afd_format.final_states
          (A.states.map State.name) AFD.empty hmem
      rw [hbi, hinitR]
      have hbn : b.nameOf j = st.name := by
        unfold AFD.nameOf
        rw [hbs, hget]
      have hfinal : b.nameOf j = A.nameOf i0 := by
        rw [hbn, hname, hdini2]
      simp [hfinal]
  · intro n
    have hbfN : b.finalNames = (addStates AFD.empty A.to_afd_format.initial_state
        A.to_afd_format.final_states (A.states.map State.name)).finalNames := by
      unfold AFD.finalNames
      rw [hbf]
      apply map_congr_mem
      intro j _
      rw [nameOf_eq_names, nameOf_eq_names, hbs]
    have hRfN : (addStates AFD.empty A.to_afd_format.initial_state
        A.to_afd_format.final_states (A.states.map State.name)).finalNames
        = (A.states.map State.name).filter
            (fun n2 => decide (n2 ∈ A.to_afd_format.final_states)) := by
      rw [addStates_finalNames _ _ _ AFD.empty (fun j hj => absurd hj (List.not_mem_nil j))]
      rfl
    rw [hbfN, hRfN, List.mem_filter]
    constructor
    · rintro ⟨-, hf⟩
      exact of_decide_eq_true hf
    · intro hf
      refine ⟨?_, decide_eq_true hf⟩
      have hf2 : n ∈ A.final_states.map A.nameOf := hf
      obtain ⟨j, hj, hnj⟩ := List.mem_map.mp hf2
      rw [← hnj]
      exact List.get?_mem (names_get?_of_lt A (hfinWF j hj))
  · unfold AFD.nameTriples
    rw [hbtA]
    exact map_congr_fun _ _ (fun e => by rw [hnameOf, hnameOf]) _

/-- Witness for C1: the round trip at the spec's example automaton. -/
theorem claim_C1_witness :
    Built exA ∧ (exA.states.map State.name).Nodup ∧
    (∀ st ∈ exA.states, ',' ∉ st.name) ∧
    (∀ e ∈ exA.transitions, ',' ∉ e.1.2) ∧
    (∃ b, AFD.from_afd_format exA.to_afd_format = .ok b ∧
      b.states.map State.name = exA.states.map State.name ∧
      b.initial_state.map b.nameOf = exA.initial_state.map exA.nameOf ∧
      (∀ n, n ∈ b.finalNames ↔ n ∈ exA.finalNames) ∧
      b.nameTriples = exA.nameTriples) :=
  ⟨built_exA, by decide, by decide, by decide,
    claim_C1 exA built_exA (by decide) (by decide) (by decide) (by decide)⟩

end AFDVerify
